import Mathlib

/-!
Verification development for the mcp-ai-memory memory engine.

This file gives a shallow embedding, in Lean 4, of the parts of the
TypeScript source that the checked claims are about:

* the decay service (`src/services/decayService.ts`): decay-score formula,
  preservation check, state mapping, state-transition side effects,
  `preserveMemory`;
* the memory service (`src/services/memory-service.ts`): `store` with its
  dedup hit path, `search`, `list`, `update`, `delete`, `graphSearch`,
  `createRelation`;
* the traversal service (`src/services/traversalService.ts`): bounded
  BFS/DFS `traverse` with its filtered row fetch and connection gathering;
* the embedding worker (`src/workers/embedding-worker.ts`):
  `processEmbedding`;
* the zod validation schema `SearchMemorySchema`
  (`src/schemas/validation.ts`).

Modelling conventions.  JSON numbers and timestamps are rationals
(timestamps are milliseconds since the epoch, as in JavaScript
`Date.getTime()`); floating point is modelled by the reals, with
`Math.exp`/`Math.log1p` as `Real.exp`/`Real.log (1 + ·)`.  External
collaborators that are not code of this repository are parameters of the
operations that call them: the SHA-256 content hash (`node:crypto`), the
embedding model (`@xenova/transformers`) and the pgvector `<=>` distance
operator are taken as function arguments, and every theorem below holds
for all instantiations of those parameters.  The database trigger
`update_updated_at_column` (migration `001_initial.ts`) sets
`updated_at = CURRENT_TIMESTAMP` on every UPDATE of `memories`; modelled
updates therefore always set `updated_at` to the current time.  JSONB
`metadata` is modelled as a record of the keys the code reads or writes;
an absent key is `none` / the empty list.
-/

namespace McpMemory

/-- JavaScript `x || d` on numbers: the fallback fires when `x` is `0`
(the only falsy rational; `NaN` is not modelled). -/
def jsOr (x d : ℚ) : ℚ := if x = 0 then d else x

/-- JavaScript `s || d` on an optional string: the fallback fires when the
string is absent or empty. -/
def jsOrStr (s : Option String) (d : String) : String :=
  match s with
  | none => d
  | some s0 => if s0 = "" then d else s0

/-- Clamp a rational to the unit interval, as `Math.max(0, Math.min(1, x))`. -/
def clamp01 (x : ℚ) : ℚ := max 0 (min 1 x)

/-- Memory `content` JSONB column: either the JSON value stored by the
caller (kept as its canonical serialization) or the compressed wrapper
object whose single key `text` holds a summary string. -/
inductive Content where
  | json (s : String)
  | textWrapped (s : String)
  deriving Repr, DecidableEq

/-- JSONB `metadata` column, as a record of the keys the claims touch.
`preservedUntil` is an ISO-8601 instant (modelled as its epoch value),
`transitions` is the decay transition log of `(from, to, timestamp)`
entries, `relationships` is the list attached by `graphSearch`. -/
structure Metadata where
  preservedUntil : Option ℚ := none
  transitions : List (String × String × ℚ) := []
  relationships : List (String × String × ℚ) := []
  embeddingError : Option String := none
  compressionInfo : Option (ℕ × ℕ) := none
  deriving Repr, DecidableEq

/-- Row of the `memories` table (types from `src/types/database.ts`, column
defaults from migrations `001_initial.ts` and the decay migration).
`state` is nullable in legacy rows, hence `Option String` with the code
reading `memory.state || 'active'`. -/
structure Memory where
  id : String
  user_context : String
  content : Content
  content_hash : String
  embedding : Option (List ℚ) := none
  embedding_dimension : Option ℕ := none
  tags : List String := []
  type : String
  source : String := "test"
  confidence : ℚ := 1
  similarity_threshold : ℚ := 0.7
  created_at : ℚ := 0
  updated_at : ℚ := 0
  accessed_at : Option ℚ := none
  deleted_at : Option ℚ := none
  access_count : ℕ := 0
  parent_id : Option String := none
  relation_type : Option String := none
  cluster_id : Option String := none
  importance_score : ℚ := 0.5
  decay_rate : ℚ := 0.01
  metadata : Metadata := {}
  state : Option String := some "active"
  decay_score : ℚ := 1
  last_decay_update : ℚ := 0
  is_compressed : Bool := false
  deriving Repr, DecidableEq

/-- Row of the `memory_relations` table. -/
structure MemoryRelation where
  id : String
  from_memory_id : String
  to_memory_id : String
  relation_type : String
  strength : ℚ
  created_at : ℚ := 0
  deriving Repr, DecidableEq

/-- Database state: the two tables the claims touch. -/
structure Db where
  memories : List Memory
  relations : List MemoryRelation
  deriving Repr, DecidableEq

/-- Decay configuration (`DecayConfig` with `DEFAULT_CONFIG` defaults in
`decayService.ts`). -/
structure DecayConfig where
  baseDecayRate : ℚ := 0.01
  accessBoost : ℚ := 0.1
  archivalThreshold : ℚ := 0.1
  expirationThreshold : ℚ := 0.01
  preservationTags : List String :=
    ["permanent", "important", "bookmark", "favorite", "pinned", "preserved"]
  relationshipBoost : Option ℚ := some 0.05
  deriving Repr, DecidableEq

/-- ASCII lowercasing, modelling JavaScript `String.prototype.toLowerCase`
on the ASCII tag strings at hand (written over the character list so that
it evaluates by kernel reduction). -/
def lowerAscii (s : String) : String := ⟨s.data.map Char.toLower⟩

/-- DecayService.isPreserved: some tag, lowercased, is a preservation tag,
and `metadata.preservedUntil` is absent or strictly in the future. -/
def isPreserved (cfg : DecayConfig) (m : Memory) (now : ℚ) : Bool :=
  let hasPreservationTag := m.tags.any fun tag => cfg.preservationTags.contains (lowerAscii tag)
  if hasPreservationTag then
    match m.metadata.preservedUntil with
    | some u => decide (now < u)
    | none => true
  else
    false

/-- DecayService.calculateDecayScore, translated statement by statement
from `decayService.ts` lines 34-61.  `connections` stands for the value of
the `getConnectionCount` database query (the relation degree of `m`);
`now` is `Date.now()`. -/
noncomputable def calculateDecayScore (cfg : DecayConfig) (m : Memory) (now : ℚ)
    (connections : ℕ) : ℝ :=
  let daysSinceAccess : ℝ :=
    ((now - m.accessed_at.getD m.created_at : ℚ) : ℝ) / (1000 * 60 * 60 * 24)
  let effectiveDecayRate : ℚ := jsOr m.decay_rate cfg.baseDecayRate
  let score0 : ℝ :=
    ((jsOr m.importance_score 0.5 : ℚ) : ℝ) *
      Real.exp (-(effectiveDecayRate : ℝ) * daysSinceAccess)
  let score1 : ℝ := score0 + Real.log (1 + (m.access_count : ℝ)) * (cfg.accessBoost : ℝ)
  let score2 : ℝ := score1 * (m.confidence : ℝ)
  let score3 : ℝ :=
    match cfg.relationshipBoost with
    | none => score2
    | some b => if b = 0 then score2 else score2 + Real.log (1 + (connections : ℝ)) * (b : ℝ)
  let score4 : ℝ := if isPreserved cfg m now then max score3 0.95 else score3
  max 0 (min 1 score4)

/-- Claim C2's formula, written from the spec text of §4.10: the base term
is `m.importance_score · exp(−λ·d_days)` with no fallback on a zero
importance score; every other step matches the code. -/
noncomputable def specDecayFormula (cfg : DecayConfig) (m : Memory) (now : ℚ)
    (connections : ℕ) : ℝ :=
  let dDays : ℝ :=
    ((now - m.accessed_at.getD m.created_at : ℚ) : ℝ) / (1000 * 60 * 60 * 24)
  let lam : ℚ := jsOr m.decay_rate cfg.baseDecayRate
  let base : ℝ := ((m.importance_score : ℚ) : ℝ) * Real.exp (-(lam : ℝ) * dDays)
  let withAccess : ℝ := base + Real.log (1 + (m.access_count : ℝ)) * (cfg.accessBoost : ℝ)
  let withConfidence : ℝ := withAccess * (m.confidence : ℝ)
  let withRelations : ℝ :=
    match cfg.relationshipBoost with
    | none => withConfidence
    | some b =>
      if b = 0 then withConfidence
      else withConfidence + Real.log (1 + (connections : ℝ)) * (b : ℝ)
  let withPreservation : ℝ :=
    if isPreserved cfg m now then max withRelations 0.95 else withRelations
  max 0 (min 1 withPreservation)

/-- Amendment of claim C2's formula: identical to `specDecayFormula`
except that the base term reads the importance score through the
JavaScript `||` fallback, `(memory.importance_score || 0.5)`, as the
source does. -/
noncomputable def specDecayFormulaAmended (cfg : DecayConfig) (m : Memory) (now : ℚ)
    (connections : ℕ) : ℝ :=
  let dDays : ℝ :=
    ((now - m.accessed_at.getD m.created_at : ℚ) : ℝ) / (1000 * 60 * 60 * 24)
  let lam : ℚ := jsOr m.decay_rate cfg.baseDecayRate
  let base : ℝ := ((jsOr m.importance_score 0.5 : ℚ) : ℝ) * Real.exp (-(lam : ℝ) * dDays)
  let withAccess : ℝ := base + Real.log (1 + (m.access_count : ℝ)) * (cfg.accessBoost : ℝ)
  let withConfidence : ℝ := withAccess * (m.confidence : ℝ)
  let withRelations : ℝ :=
    match cfg.relationshipBoost with
    | none => withConfidence
    | some b =>
      if b = 0 then withConfidence
      else withConfidence + Real.log (1 + (connections : ℝ)) * (b : ℝ)
  let withPreservation : ℝ :=
    if isPreserved cfg m now then max withRelations 0.95 else withRelations
  max 0 (min 1 withPreservation)

/-- DecayService.determineState: thresholds 0.5 (hardcoded), then the
configured archival and expiration thresholds. -/
noncomputable def determineState (cfg : DecayConfig) (decayScore : ℝ) : String :=
  if decayScore ≥ 0.5 then "active"
  else if decayScore ≥ (cfg.archivalThreshold : ℝ) then "dormant"
  else if decayScore ≥ (cfg.expirationThreshold : ℝ) then "archived"
  else "expired"

/-- Memory whose importance score is zero, exercising the JavaScript `||`
fallback in `calculateDecayScore`. -/
def zeroImportanceMemory : Memory :=
  { id := "mem-c2"
    user_context := "default"
    content := .json "c2"
    content_hash := "hash-c2"
    type := "fact"
    confidence := 1
    importance_score := 0
    decay_rate := 0.01
    access_count := 0
    tags := []
    accessed_at := some 0
    created_at := 0 }

/-- C2 counterexample: at a memory whose `importance_score` is `0`
(accessed just now, no accesses, full confidence, no relations), the code
returns `0.5` — the JavaScript `||` fallback replaces the zero importance
score by `0.5` — while the claim's formula returns `0`. -/
theorem calculateDecayScore_ne_specFormula_at_zero_importance :
    calculateDecayScore {} zeroImportanceMemory 0 0 = 1 / 2 ∧
    specDecayFormula {} zeroImportanceMemory 0 0 = 0 ∧
    calculateDecayScore {} zeroImportanceMemory 0 0 ≠
      specDecayFormula {} zeroImportanceMemory 0 0 := by
  unfold calculateDecayScore specDecayFormula isPreserved zeroImportanceMemory
  norm_num [Real.exp_zero, Real.log_one, jsOr]

/-- C2 (amended): for every configuration, memory, time and relation
degree, `calculateDecayScore` equals the spec's formula once the base term
is read through the JavaScript fallback `(memory.importance_score || 0.5)`;
all other steps of the claim's formula (exponential decay, access boost,
confidence scaling, relationship boost when configured, preservation floor
0.95, clamp to the unit interval) match the code exactly. -/
theorem calculateDecayScore_eq_specFormulaAmended (cfg : DecayConfig) (m : Memory)
    (now : ℚ) (connections : ℕ) :
    calculateDecayScore cfg m now connections =
      specDecayFormulaAmended cfg m now connections := rfl

/-- Whitelisted update input of `MemoryService.update`
(`UpdateMemorySchema`): only tags, confidence, importance_score, type and
source may change. -/
structure UpdateInput where
  id : String
  tags : Option (List String) := none
  confidence : Option ℚ := none
  importance_score : Option ℚ := none
  type : Option String := none
  source : Option String := none
  preserve_timestamps : Bool := false
  deriving Repr, DecidableEq

/-- Field updates of `MemoryService.update` applied to one row.  The
`update_updated_at_column` trigger sets `updated_at` on every UPDATE, so
the final assignment is unconditional. -/
def applyUpdates (u : UpdateInput) (now : ℚ) (r : Memory) : Memory :=
  let r1 := match u.tags with | some ts => { r with tags := ts } | none => r
  let r2 := match u.confidence with | some c => { r1 with confidence := c } | none => r1
  let r3 :=
    match u.importance_score with
    | some s => { r2 with importance_score := s }
    | none => r2
  let r4 := match u.type with | some t => { r3 with type := t } | none => r3
  let r5 := match u.source with | some s => { r4 with source := s } | none => r4
  { r5 with updated_at := now }

/-- MemoryService.update: updates the row whose id matches (no
`deleted_at` or `user_context` filter in the source) and returns the
updated row.  Note that the decay fields (`decay_score`, `state`) are not
recomputed. -/
def memoryServiceUpdate (db : List Memory) (u : UpdateInput) (now : ℚ) :
    Option Memory × List Memory :=
  ((db.find? fun r => decide (r.id = u.id)).map (applyUpdates u now),
   db.map fun r => if r.id = u.id then applyUpdates u now r else r)

/-- Decayed memory with no preservation tag: `decay_score` 0.3, state
`dormant`, consistent with the decay state mapping. -/
def dormantMemory : Memory :=
  { id := "mem-c3"
    user_context := "default"
    content := .json "c3"
    content_hash := "hash-c3"
    type := "fact"
    confidence := 0.9
    importance_score := 0.4
    tags := []
    state := some "dormant"
    decay_score := 0.3 }

/-- C3 counterexample: `memory_update` that adds the preservation tag
`important` to a decayed memory leaves `decay_score` and `state`
untouched, so right after the update the row is preserved but has
`decay_score = 0.3 < 0.95` and a non-active state — the invariant is not
maintained by `memory_update` of tags. -/
theorem update_breaks_preservation_invariant :
    (memoryServiceUpdate [dormantMemory]
        { id := "mem-c3", tags := some ["important"] } 100).1 =
      some { dormantMemory with tags := ["important"], updated_at := 100 } ∧
    isPreserved {} { dormantMemory with tags := ["important"], updated_at := 100 } 100 = true ∧
    ({ dormantMemory with tags := ["important"], updated_at := 100 } : Memory).decay_score
        < 0.95 ∧
    ({ dormantMemory with tags := ["important"], updated_at := 100 } : Memory).state
        ≠ some "active" := by
  refine ⟨rfl, by decide, ?_, by decide⟩
  norm_num [dormantMemory]

/-- C3 (amended): the invariant is established by the decay computation
itself — for every configuration, preserved memory, time and relation
degree, the recomputed decay score is at least 0.95 and the state derived
from it is `active`.  It is not maintained by `memory_update` of tags,
which never recomputes `decay_score` or `state`
(see `update_breaks_preservation_invariant`). -/
theorem preserved_memory_decay_floor (cfg : DecayConfig) (m : Memory) (now : ℚ)
    (connections : ℕ) (h : isPreserved cfg m now = true) :
    0.95 ≤ calculateDecayScore cfg m now connections ∧
    determineState cfg (calculateDecayScore cfg m now connections) = "active" := by
  have key : ∀ x : ℝ, (0.95 : ℝ) ≤ max 0 (min 1 (max x 0.95)) := by
    intro x
    have h1 : (0.95 : ℝ) ≤ min 1 (max x 0.95) := le_min (by norm_num) (le_max_right _ _)
    exact h1.trans (le_max_right 0 _)
  have hscore : 0.95 ≤ calculateDecayScore cfg m now connections := by
    unfold calculateDecayScore
    rw [h]
    simp only [if_true]
    exact key _
  refine ⟨hscore, ?_⟩
  have h5 : calculateDecayScore cfg m now connections ≥ 0.5 := by
    have : (0.5 : ℝ) ≤ 0.95 := by norm_num
    exact le_trans this hscore
  unfold determineState
  rw [if_pos h5]

/-- Memory carrying the preservation tag `pinned` and no expiry. -/
def preservedTaggedMemory : Memory :=
  { id := "mem-c3w"
    user_context := "default"
    content := .json "c3w"
    content_hash := "hash-c3w"
    type := "fact"
    tags := ["pinned"]
    accessed_at := some 0 }

/-- Witness for `preserved_memory_decay_floor` at a concrete preserved
memory. -/
theorem preserved_memory_decay_floor_witness :
    isPreserved {} preservedTaggedMemory 0 = true ∧
    (0.95 ≤ calculateDecayScore {} preservedTaggedMemory 0 0 ∧
     determineState {} (calculateDecayScore {} preservedTaggedMemory 0 0) = "active") :=
  ⟨by decide, preserved_memory_decay_floor {} preservedTaggedMemory 0 0 (by decide)⟩

/-- DecayService.preserveMemory.  In the source the first UPDATE sets
`decay_score = 1.0`, `state = 'active'`, `last_decay_update = now` and
appends the `preserved` tag, but its WHERE clause
`NOT ('preserved' = ANY(tags)) IS TRUE` guards the whole statement, so a
row already tagged `preserved` is not updated at all.  The second UPDATE
runs only when `until` is given and unconditionally writes
`metadata.preservedUntil`. -/
def preserveMemory (db : List Memory) (memoryId : String) (now : ℚ)
    (untilTime : Option ℚ) : List Memory :=
  let db1 := db.map fun r =>
    if r.id = memoryId ∧ r.tags.contains "preserved" = false then
      { r with decay_score := 1, state := some "active", last_decay_update := now,
               updated_at := now, tags := r.tags ++ ["preserved"] }
    else r
  match untilTime with
  | none => db1
  | some u =>
    db1.map fun r =>
      if r.id = memoryId then
        { r with metadata := { r.metadata with preservedUntil := some u }, updated_at := now }
      else r

/-- Aged memory that already carries the `preserved` tag but a decayed
score. -/
def alreadyTaggedMemory : Memory :=
  { id := "mem-c4"
    user_context := "default"
    content := .json "c4"
    content_hash := "hash-c4"
    type := "fact"
    tags := ["preserved"]
    decay_score := 0.2
    state := some "archived" }

/-- C4 counterexample: on a memory that already carries the `preserved`
tag, `preserveMemory` leaves the row completely unchanged — in particular
`decay_score` stays 0.2 (not 1.0), the state stays `archived` (not
`active`) and `last_decay_update` is not refreshed, so the postcondition
fails when the tag was already present. -/
theorem preserveMemory_skips_already_tagged :
    preserveMemory [alreadyTaggedMemory] "mem-c4" 500 none = [alreadyTaggedMemory] ∧
    alreadyTaggedMemory.decay_score ≠ 1 ∧
    alreadyTaggedMemory.state ≠ some "active" ∧
    alreadyTaggedMemory.last_decay_update ≠ 500 := by
  refine ⟨rfl, ?_, by decide, ?_⟩ <;> norm_num [alreadyTaggedMemory]

/-- C4 (amended): the advertised postcondition of `preserveMemory` holds
exactly for rows that do not yet carry the `preserved` tag: the updated
row has `decay_score = 1.0`, `state = active`, `last_decay_update = now`,
`preserved` appended to its tags, and `metadata.preservedUntil = until`
when `until` is given.  A row already tagged `preserved` only receives the
`metadata.preservedUntil` write (when `until` is given); its decay fields
are untouched (see `preserveMemory_skips_already_tagged`). -/
theorem preserveMemory_postcondition (db : List Memory) (mid : String) (now : ℚ)
    (untilTime : Option ℚ) (r : Memory) (hr : r ∈ db) (hid : r.id = mid)
    (htag : r.tags.contains "preserved" = false) :
    ∃ r2 ∈ preserveMemory db mid now untilTime,
      r2.decay_score = 1 ∧ r2.state = some "active" ∧ r2.last_decay_update = now ∧
      r2.tags = r.tags ++ ["preserved"] ∧
      ∀ u, untilTime = some u → r2.metadata.preservedUntil = some u := by
  unfold preserveMemory
  have hcond : r.id = mid ∧ r.tags.contains "preserved" = false := ⟨hid, htag⟩
  cases untilTime with
  | none =>
    refine ⟨_, List.mem_map_of_mem _ hr, ?_⟩
    rw [if_pos hcond]
    exact ⟨rfl, rfl, rfl, rfl, fun u hu => by cases hu⟩
  | some u0 =>
    simp only []
    refine ⟨_, List.mem_map_of_mem _ (List.mem_map_of_mem _ hr), ?_⟩
    rw [if_pos hcond]
    rw [if_pos hid]
    exact ⟨rfl, rfl, rfl, rfl, fun u hu => by cases hu; rfl⟩

/-- Untagged memory used as the concrete input of the C4 witness. -/
def untaggedMemory : Memory :=
  { id := "mem-c4w"
    user_context := "default"
    content := .json "c4w"
    content_hash := "hash-c4w"
    type := "fact"
    tags := ["note"]
    decay_score := 0.4
    state := some "dormant" }

/-- Witness for `preserveMemory_postcondition` at a concrete untagged
memory with an expiry. -/
theorem preserveMemory_postcondition_witness :
    ∃ r2 ∈ preserveMemory [untaggedMemory] "mem-c4w" 700 (some 9000),
      r2.decay_score = 1 ∧ r2.state = some "active" ∧ r2.last_decay_update = 700 ∧
      r2.tags = untaggedMemory.tags ++ ["preserved"] ∧
      ∀ u, (some 9000 : Option ℚ) = some u → r2.metadata.preservedUntil = some u :=
  preserveMemory_postcondition [untaggedMemory] "mem-c4w" 700 (some 9000) untaggedMemory
    (by simp) (by decide) (by decide)

/-- Result of one `handleStateTransition` call: the updated row, plus the
list of memories passed to `compressionService.compressMemory` (the source
discards the return value of that call, so only the invocation is
recorded). -/
structure TransitionResult where
  row : Memory
  compressionCalls : List Memory
  deriving Repr, DecidableEq

/-- DecayService.handleStateTransition (`decayService.ts` lines 127-166):
no-op when the state is unchanged; otherwise the transition is appended to
`metadata.transitions`; entering `archived` on an uncompressed row invokes
compression (result unused); entering `expired` soft-deletes the row. -/
def handleStateTransition (m : Memory) (newState : String) (now : ℚ) : TransitionResult :=
  let currentState := jsOrStr m.state "active"
  if currentState = newState then { row := m, compressionCalls := [] }
  else
    let transitions := m.metadata.transitions ++ [(currentState, newState, now)]
    let m1 : Memory :=
      { m with metadata := { m.metadata with transitions := transitions }, updated_at := now }
    if newState = "archived" ∧ m.is_compressed = false then
      { row := m1, compressionCalls := [m] }
    else if newState = "expired" then
      { row := { m1 with deleted_at := some now }, compressionCalls := [] }
    else
      { row := m1, compressionCalls := [] }

/-- Uncompressed active memory about to be archived. -/
def uncompressedActiveMemory : Memory :=
  { id := "mem-c5"
    user_context := "default"
    content := .json "a long document body"
    content_hash := "hash-c5"
    type := "document"
    state := some "active"
    is_compressed := false }

/-- C5 counterexample: on entering `archived` with `is_compressed = false`
the compression component is invoked, but the stored row does not reflect
it — its `content` is unchanged and `is_compressed` remains `false`,
because the source discards the value returned by
`compressionService.compressMemory` and never writes the compressed
content back. -/
theorem archived_transition_does_not_persist_compression :
    (handleStateTransition uncompressedActiveMemory "archived" 900).compressionCalls =
      [uncompressedActiveMemory] ∧
    (handleStateTransition uncompressedActiveMemory "archived" 900).row.is_compressed =
      false ∧
    (handleStateTransition uncompressedActiveMemory "archived" 900).row.content =
      uncompressedActiveMemory.content :=
  ⟨rfl, rfl, rfl⟩

/-- C5 (amended): whenever the state actually changes, the transition is
recorded in `metadata.transitions`; entering `expired` sets
`deleted_at = now`; entering `archived` while `is_compressed = false`
invokes the compression component on the row, but the stored row's content
and compression flag are unchanged — the compressed representation is not
persisted. -/
theorem handleStateTransition_effects (m : Memory) (newState : String) (now : ℚ)
    (h : jsOrStr m.state "active" ≠ newState) :
    (handleStateTransition m newState now).row.metadata.transitions =
      m.metadata.transitions ++ [(jsOrStr m.state "active", newState, now)] ∧
    (newState = "expired" → (handleStateTransition m newState now).row.deleted_at = some now) ∧
    (newState = "archived" → m.is_compressed = false →
      (handleStateTransition m newState now).compressionCalls = [m] ∧
      (handleStateTransition m newState now).row.content = m.content ∧
      (handleStateTransition m newState now).row.is_compressed = false) := by
  unfold handleStateTransition
  rw [if_neg h]
  by_cases h1 : newState = "archived" ∧ m.is_compressed = false
  · rw [if_pos h1]
    refine ⟨rfl, ?_, ?_⟩
    · intro he
      rw [he] at h1
      exact absurd h1.1 (by decide)
    · intro _ hc
      exact ⟨rfl, rfl, hc⟩
  · rw [if_neg h1]
    by_cases h2 : newState = "expired"
    · rw [if_pos h2]
      exact ⟨rfl, fun _ => rfl, fun ha hc => absurd ⟨ha, hc⟩ h1⟩
    · rw [if_neg h2]
      exact ⟨rfl, fun he => absurd he h2, fun ha hc => absurd ⟨ha, hc⟩ h1⟩

/-- Dormant memory about to expire. -/
def expiringMemory : Memory :=
  { id := "mem-c5w"
    user_context := "default"
    content := .json "c5w"
    content_hash := "hash-c5w"
    type := "fact"
    state := some "archived"
    is_compressed := true }

/-- Witness for `handleStateTransition_effects` at a concrete transition
into `expired`. -/
theorem handleStateTransition_effects_witness :
    (handleStateTransition expiringMemory "expired" 333).row.metadata.transitions =
      expiringMemory.metadata.transitions ++
        [(jsOrStr expiringMemory.state "active", "expired", 333)] ∧
    ("expired" = "expired" →
      (handleStateTransition expiringMemory "expired" 333).row.deleted_at = some 333) ∧
    ("expired" = "archived" → expiringMemory.is_compressed = false →
      (handleStateTransition expiringMemory "expired" 333).compressionCalls =
        [expiringMemory] ∧
      (handleStateTransition expiringMemory "expired" 333).row.content =
        expiringMemory.content ∧
      (handleStateTransition expiringMemory "expired" 333).row.is_compressed = false) :=
  handleStateTransition_effects expiringMemory "expired" 333 (by decide)

/-- EmbeddingWorker.processEmbedding (`embedding-worker.ts` lines
385-431): skip when the row already has an embedding (idempotency);
otherwise generate the vector and UPDATE the row with `embedding` and
`updated_at` only — the source sets no other column.  `embedFn` is the
opaque embedding model. -/
def processEmbedding (embedFn : String → List ℚ) (db : List Memory)
    (memoryId content : String) (now : ℚ) : List Memory :=
  match db.find? fun r => decide (r.id = memoryId) with
  | some r =>
    if r.embedding.isSome then db
    else
      db.map fun x =>
        if x.id = memoryId then { x with embedding := some (embedFn content), updated_at := now }
        else x
  | none =>
    db.map fun x =>
      if x.id = memoryId then { x with embedding := some (embedFn content), updated_at := now }
      else x

/-- Memory row awaiting its asynchronous embedding. -/
def pendingEmbeddingMemory : Memory :=
  { id := "mem-c7"
    user_context := "default"
    content := .json "c7"
    content_hash := "hash-c7"
    type := "fact"
    embedding := none
    embedding_dimension := none }

/-- C7: after the embedding job completes on a row without an embedding,
the row holds the generated vector and the new `updated_at`, but
`embedding_dimension` is still NULL — the worker never writes it, so the
claimed invariant `embedding_dimension set iff embedding present` is
violated by the job itself (the repository's CHANGELOG says the worker was
updated to set `embedding_dimension`; the code does not).  The final
conjunct checks the idempotent half of the claim: re-running the job on
the row that now has an embedding changes nothing. -/
theorem processEmbedding_leaves_dimension_null :
    processEmbedding (fun _ => [1, 2, 3]) [pendingEmbeddingMemory] "mem-c7" "c7" 5 =
      [{ pendingEmbeddingMemory with embedding := some [1, 2, 3], updated_at := 5 }] ∧
    ({ pendingEmbeddingMemory with embedding := some [1, 2, 3], updated_at := 5 }
        : Memory).embedding.isSome = true ∧
    ({ pendingEmbeddingMemory with embedding := some [1, 2, 3], updated_at := 5 }
        : Memory).embedding_dimension = none ∧
    processEmbedding (fun _ => [1, 2, 3])
        [{ pendingEmbeddingMemory with embedding := some [1, 2, 3], updated_at := 5 }]
        "mem-c7" "c7" 9 =
      [{ pendingEmbeddingMemory with embedding := some [1, 2, 3], updated_at := 5 }] :=
  ⟨rfl, rfl, rfl, rfl⟩

/-- Characters stripped by `sanitizeString` in `validation.ts`: the regex
class 0x00-0x08, 0x0B, 0x0C, 0x0E-0x1F, 0x7F (newline, tab and carriage
return survive). -/
def isStrippedControl (c : Char) : Bool :=
  decide (c.toNat ≤ 8) || decide (c.toNat = 11) || decide (c.toNat = 12) ||
    (decide (14 ≤ c.toNat) && decide (c.toNat ≤ 31)) || decide (c.toNat = 127)

/-- JavaScript `String.prototype.trim`, written over the character list so
that it evaluates by kernel reduction. -/
def trimAscii (s : String) : String :=
  ⟨((s.data.dropWhile Char.isWhitespace).reverse.dropWhile Char.isWhitespace).reverse⟩

/-- validation.ts `sanitizeString`: strip the control characters, then
trim. -/
def sanitizeString (s : String) : String :=
  trimAscii ⟨s.data.filter fun c => !isStrippedControl c⟩

/-- validation.ts `sanitizeTag`: keep only alphanumerics, whitespace,
hyphen and underscore, trim, then truncate to 50 characters. -/
def sanitizeTag (tag : String) : String :=
  let kept := tag.data.filter fun c => c.isAlphanum || c.isWhitespace || c == '-' || c == '_'
  ⟨(trimAscii ⟨kept⟩).data.take 50⟩

/-- Raw RPC input of `memory_search` before validation (absent JSON keys
are `none`; numbers are rationals). -/
structure RawSearchInput where
  query : Option String := none
  type : Option String := none
  tags : Option (List String) := none
  limit : Option ℚ := none
  threshold : Option ℚ := none
  user_context : Option String := none
  include_relations : Option Bool := none
  deriving Repr, DecidableEq

/-- Output of a successful `SearchMemorySchema.parse`. -/
structure ParsedSearch where
  query : String
  type : Option String := none
  tags : Option (List String) := none
  limit : ℚ
  threshold : ℚ
  user_context : Option String := none
  include_relations : Bool
  deriving Repr, DecidableEq

/-- The eight user-storable memory types of `MemoryTypeSchema`. -/
def memoryTypeNames : List String :=
  ["fact", "conversation", "decision", "insight", "error", "context", "preference", "task"]

/-- SearchMemorySchema.parse (`validation.ts` lines 64-72): `query`
required with length 1-1000 then sanitized; `type` an enum member;
`tags` sanitized; `limit` an integer in [1, 100] defaulting to 20;
`threshold` in [0, 1] defaulting to 0.7; `user_context` of length at most
100 then sanitized; `include_relations` defaulting to false. -/
def parseSearchMemory (input : RawSearchInput) : Except String ParsedSearch := do
  let query ←
    match input.query with
    | none => .error "query: Required"
    | some q =>
      if 1 ≤ q.length ∧ q.length ≤ 1000 then .ok (sanitizeString q)
      else .error "query: invalid length"
  let mtype ←
    match input.type with
    | none => .ok none
    | some t =>
      if memoryTypeNames.contains t then .ok (some t) else .error "type: invalid enum value"
  let tags := input.tags.map (List.map sanitizeTag)
  let lim ←
    match input.limit with
    | none => .ok (20 : ℚ)
    | some x =>
      if x.den = 1 ∧ 1 ≤ x ∧ x ≤ 100 then .ok x
      else .error "limit: invalid"
  let thr ←
    match input.threshold with
    | none => .ok (0.7 : ℚ)
    | some x => if 0 ≤ x ∧ x ≤ 1 then .ok x else .error "threshold: invalid"
  let uc ←
    match input.user_context with
    | none => .ok none
    | some s =>
      if s.length ≤ 100 then .ok (some (sanitizeString s))
      else .error "user_context: too long"
  .ok { query := query, type := mtype, tags := tags, limit := lim, threshold := thr,
        user_context := uc, include_relations := input.include_relations.getD false }

/-- C9: the code accepts `limit = 100`, rejects `limit = 101`, applies
threshold default 0.7 — but an input omitting `limit` is processed with
`limit = 20`, not 10: `SearchMemorySchema` declares `.default(20)` while
the repository's own validation test (and the spec) expect the default 10.
The last conjunct records that 20 is not the claimed 10. -/
theorem searchSchema_limit_bounds_and_default :
    (parseSearchMemory { query := some "test", limit := some 100 }).map ParsedSearch.limit =
      .ok 100 ∧
    (parseSearchMemory { query := some "test", limit := some 101 }).map ParsedSearch.limit =
      .error "limit: invalid" ∧
    (parseSearchMemory { query := some "test" }).map ParsedSearch.limit = .ok 20 ∧
    (parseSearchMemory { query := some "test" }).map ParsedSearch.threshold = .ok 0.7 ∧
    (20 : ℚ) ≠ 10 := by
  refine ⟨?_, ?_, rfl, rfl, by norm_num⟩
  · norm_num [parseSearchMemory]
    rfl
  · norm_num [parseSearchMemory]
    rfl

/-- Input of `MemoryService.delete`: id or content hash
(`DeleteMemorySchema` requires at least one of the two). -/
structure DeleteInput where
  id : Option String := none
  content_hash : Option String := none
  deriving Repr, DecidableEq

/-- Row filter of `MemoryService.delete`: by id when given, else by
content hash.  There is no `user_context` predicate. -/
def matchesDelete (input : DeleteInput) (r : Memory) : Bool :=
  match input.id with
  | some i => decide (r.id = i)
  | none =>
    match input.content_hash with
    | some h => decide (r.content_hash = h)
    | none => true

/-- MemoryService.delete (`memory-service.ts` lines 305-326): soft-delete
every not-yet-deleted row matched by the input, setting `deleted_at`
(and `updated_at` via the database trigger). -/
def deleteMemories (db : List Memory) (input : DeleteInput) (now : ℚ) : List Memory :=
  db.map fun r =>
    if r.deleted_at = none ∧ matchesDelete input r then
      { r with deleted_at := some now, updated_at := now }
    else r

/-- C10: delete called with a content hash and no id soft-deletes every
non-deleted row whose hash matches, with no condition on the row's
`user_context` — the statement quantifies over rows of arbitrary tenants,
so identical content stored by all tenants is removed by one call. -/
theorem delete_by_hash_is_cross_tenant (db : List Memory) (h : String) (now : ℚ)
    (r : Memory) (hr : r ∈ db) (hdel : r.deleted_at = none) (hh : r.content_hash = h) :
    { r with deleted_at := some now, updated_at := now } ∈
      deleteMemories db { id := none, content_hash := some h } now := by
  unfold deleteMemories
  have hc : r.deleted_at = none ∧
      matchesDelete { id := none, content_hash := some h } r := by
    exact ⟨hdel, by simp [matchesDelete, hh]⟩
  refine List.mem_map.mpr ⟨r, hr, ?_⟩
  rw [if_pos hc]

/-- Memory of tenant `alice` sharing its content hash with another tenant. -/
def aliceMemory : Memory :=
  { id := "mem-a"
    user_context := "alice"
    content := .json "shared"
    content_hash := "hash-shared"
    type := "fact" }

/-- Memory of tenant `bob` sharing its content hash with `aliceMemory`. -/
def bobMemory : Memory :=
  { id := "mem-b"
    user_context := "bob"
    content := .json "shared"
    content_hash := "hash-shared"
    type := "fact" }

/-- Witness for `delete_by_hash_is_cross_tenant`: one delete-by-hash call
soft-deletes the rows of both tenants. -/
theorem delete_by_hash_is_cross_tenant_witness :
    ({ aliceMemory with deleted_at := some 42, updated_at := 42 } ∈
      deleteMemories [aliceMemory, bobMemory]
        { id := none, content_hash := some "hash-shared" } 42) ∧
    ({ bobMemory with deleted_at := some 42, updated_at := 42 } ∈
      deleteMemories [aliceMemory, bobMemory]
        { id := none, content_hash := some "hash-shared" } 42) :=
  ⟨delete_by_hash_is_cross_tenant [aliceMemory, bobMemory] "hash-shared" 42 aliceMemory
      (by simp) rfl rfl,
   delete_by_hash_is_cross_tenant [aliceMemory, bobMemory] "hash-shared" 42 bobMemory
      (by simp) rfl rfl⟩

/-- Entry of the optional `relate_to` list of a store request
(`StoreMemorySchema`); zod defaults `strength` to 0.5. -/
structure RelateEntry where
  memory_id : String
  relation_type : String
  strength : ℚ := 0.5
  deriving Repr, DecidableEq

/-- Validated input of `MemoryService.store` (`StoreMemorySchema`);
`content` is the canonical JSON serialization of the request's content
value. -/
structure StoreInput where
  content : String
  type : String
  tags : List String := []
  source : String
  confidence : ℚ
  parent_id : Option String := none
  relation_type : Option String := none
  importance_score : ℚ := 0.5
  user_context : Option String := none
  relate_to : List RelateEntry := []
  deriving Repr, DecidableEq

/-- Flags consulted by `store`: the `useAsyncEmbedding` argument and
`config.ENABLE_ASYNC_PROCESSING`. -/
structure StoreFlags where
  useAsyncEmbedding : Bool := true
  enableAsyncProcessing : Bool := true
  deriving Repr, DecidableEq

/-- Access bump applied on a dedup hit: `access_count + 1` and
`accessed_at = now` (with `updated_at` set by the database trigger). -/
def bumpAccessRow (now : ℚ) (r : Memory) : Memory :=
  { r with access_count := r.access_count + 1, accessed_at := some now, updated_at := now }

/-- MemoryService.createRelation: verify both endpoints exist and are not
deleted, then upsert on the `(from, to)` pair with the strength clamped to
the unit interval.  In the `relate_to` loop of `store` a missing endpoint
makes the promise reject and `Promise.allSettled` swallows it, so the
failure branch leaves the database unchanged.  `newRelId` models the
generated row id. -/
def createRelation (db : Db) (fromMemoryId toMemoryId relationType : String)
    (strength : ℚ) (newRelId : String) (now : ℚ) : Db :=
  let fromOk := db.memories.any fun r => decide (r.id = fromMemoryId ∧ r.deleted_at = none)
  let toOk := db.memories.any fun r => decide (r.id = toMemoryId ∧ r.deleted_at = none)
  if fromOk && toOk then
    match db.relations.find? fun e =>
        decide (e.from_memory_id = fromMemoryId ∧ e.to_memory_id = toMemoryId) with
    | some e =>
      { db with relations := db.relations.map fun x =>
          if x.id = e.id then
            { x with relation_type := relationType, strength := clamp01 strength }
          else x }
    | none =>
      { db with relations := db.relations ++
          [{ id := newRelId, from_memory_id := fromMemoryId, to_memory_id := toMemoryId,
             relation_type := relationType, strength := clamp01 strength,
             created_at := now }] }
  else db

/-- Row inserted by the miss path of `store`: compressed content when the
serialized content exceeds 100 KB, embedding NULL when asynchronous,
column defaults from the migrations for the unset fields. -/
def insertedRow (hashFn : String → String) (embedFn : String → List ℚ)
    (compressFn : String → String → String) (flags : StoreFlags)
    (input : StoreInput) (newId : String) (now : ℚ) : Memory :=
  let contentHash := hashFn input.content
  let uc := jsOrStr input.user_context "default"
  let originalContentString := input.content
  let isCompressed := decide (originalContentString.length > 100000)
  let contentString :=
    if isCompressed then compressFn input.type originalContentString
    else originalContentString
  let compressionMetadata : Metadata :=
    if isCompressed then
      { compressionInfo := some (originalContentString.length, contentString.length) }
    else {}
  let embedding : Option (List ℚ) :=
    if flags.useAsyncEmbedding && flags.enableAsyncProcessing then none
    else some (embedFn originalContentString)
  { id := newId
    user_context := uc
    is_compressed := isCompressed
    content := if isCompressed then .textWrapped contentString else .json input.content
    content_hash := contentHash
    embedding := embedding
    embedding_dimension := none
    tags := input.tags
    type := input.type
    source := input.source
    confidence := input.confidence
    similarity_threshold := 0.7
    parent_id := input.parent_id
    relation_type := input.relation_type
    importance_score := jsOr input.importance_score 0.5
    decay_rate := 0.01
    access_count := 0
    metadata := compressionMetadata
    created_at := now
    updated_at := now
    accessed_at := none
    deleted_at := none
    state := some "active"
    decay_score := 1
    last_decay_update := now }

/-- Best-effort relation creation loop of `store` over the `relate_to`
entries. -/
def storeRelateFold (newId : String) (now : ℚ) (rels : List RelateEntry) (db : Db) : Db :=
  rels.foldl
    (fun acc rel =>
      createRelation acc newId rel.memory_id rel.relation_type rel.strength
        (newId ++ "-" ++ rel.memory_id) now)
    db

/-- MemoryService.store (`memory-service.ts` lines 39-176).  A dedup hit
bumps the access count and re-reads the row; a miss compresses oversized
content, inserts the row (embedding NULL when asynchronous), then
best-effort creates the requested relations.  `hashFn` models the SHA-256
content hash, `embedFn` the embedding model, `compressFn` the type-aware
compression summary (its result is stored wrapped as the single-key
object holding `text`); `newId` models the generated row id; row ids for
relations are derived from `newId` and the target id. -/
def store (hashFn : String → String) (embedFn : String → List ℚ)
    (compressFn : String → String → String) (flags : StoreFlags) (db : Db)
    (input : StoreInput) (newId : String) (now : ℚ) : Option Memory × Db :=
  let contentHash := hashFn input.content
  let uc := jsOrStr input.user_context "default"
  match db.memories.find? fun r =>
      decide (r.content_hash = contentHash ∧ r.user_context = uc ∧ r.deleted_at = none) with
  | some existing =>
    let memories2 := db.memories.map fun r =>
      if r.id = existing.id then bumpAccessRow now r else r
    (memories2.find? fun r => decide (r.id = existing.id), { db with memories := memories2 })
  | none =>
    let row := insertedRow hashFn embedFn compressFn flags input newId now
    (some row,
     storeRelateFold newId now input.relate_to { db with memories := db.memories ++ [row] })

/-- Relation upserts never touch the `memories` table. -/
theorem createRelation_memories (db : Db) (a b t : String) (s : ℚ) (rid : String)
    (now : ℚ) : (createRelation db a b t s rid now).memories = db.memories := by
  unfold createRelation
  by_cases h :
      (db.memories.any fun r => decide (r.id = a ∧ r.deleted_at = none)) &&
        (db.memories.any fun r => decide (r.id = b ∧ r.deleted_at = none))
  · rw [if_pos h]
    cases db.relations.find? fun e =>
        decide (e.from_memory_id = a ∧ e.to_memory_id = b) <;> rfl
  · rw [if_neg h]

/-- The best-effort `relate_to` loop of `store` never touches the
`memories` table. -/
theorem storeRelateFold_memories (newId : String) (now : ℚ) (rels : List RelateEntry) :
    ∀ db : Db, (storeRelateFold newId now rels db).memories = db.memories := by
  unfold storeRelateFold
  induction rels with
  | nil => intro db; rfl
  | cons r rs ih =>
    intro db
    rw [List.foldl_cons, ih, createRelation_memories]

/-- Store input used by the C6 concrete runs. -/
def storeInputC6 : StoreInput :=
  { content := "note", type := "fact", source := "test", confidence := 1 }

/-- Row inserted by the first C6 store call at time 0 with id `id-1`. -/
def storedRowC6 : Memory :=
  { id := "id-1"
    user_context := "default"
    is_compressed := false
    content := .json "note"
    content_hash := "note"
    embedding := none
    embedding_dimension := none
    tags := []
    type := "fact"
    source := "test"
    confidence := 1
    similarity_threshold := 0.7
    parent_id := none
    relation_type := none
    importance_score := jsOr 0.5 0.5
    decay_rate := 0.01
    access_count := 0
    metadata := {}
    created_at := 0
    updated_at := 0
    accessed_at := none
    deleted_at := none
    state := some "active"
    decay_score := 1
    last_decay_update := 0 }

/-- C6 counterexample: storing the same content twice does return the same
id, insert no second row and bump `access_count` by one — but the second
call also changes `updated_at` (the `update_updated_at_column` trigger
fires on the access-bump UPDATE), so it is not true that all fields other
than `accessed_at` are unchanged. -/
theorem store_second_call_changes_updated_at :
    (store (fun s => s) (fun _ => [1]) (fun _ c => c) {} ⟨[], []⟩ storeInputC6 "id-1" 0).1 =
      some storedRowC6 ∧
    (store (fun s => s) (fun _ => [1]) (fun _ c => c) {}
        (store (fun s => s) (fun _ => [1]) (fun _ c => c) {} ⟨[], []⟩ storeInputC6 "id-1" 0).2
        storeInputC6 "id-2" 1).1 =
      some { storedRowC6 with access_count := 1, accessed_at := some 1, updated_at := 1 } ∧
    storedRowC6.updated_at = 0 ∧
    ({ storedRowC6 with access_count := 1, accessed_at := some 1, updated_at := 1 }
        : Memory).updated_at = 1 ∧
    (1 : ℚ) ≠ 0 :=
  ⟨rfl, rfl, rfl, rfl, by norm_num⟩

/-- C6 (amended): when the content is not already present (and the
generated id is fresh), `store(x); store(x)` returns the same memory id
both times, inserts no second row, and the second call increments
`access_count` by exactly 1, leaving every field of the row unchanged
except `accessed_at` and `updated_at` (the latter set by the database
trigger on the access-bump UPDATE). -/
theorem store_dedup_hit (hashFn : String → String) (embedFn : String → List ℚ)
    (compressFn : String → String → String) (flags : StoreFlags) (db : Db)
    (input : StoreInput) (id1 id2 : String) (t1 t2 : ℚ)
    (hmiss : ∀ r ∈ db.memories,
      ¬(r.content_hash = hashFn input.content ∧
        r.user_context = jsOrStr input.user_context "default" ∧ r.deleted_at = none))
    (hfresh : ∀ r ∈ db.memories, r.id ≠ id1) :
    ∃ m1 : Memory,
      (store hashFn embedFn compressFn flags db input id1 t1).1 = some m1 ∧
      m1.id = id1 ∧ m1.access_count = 0 ∧
      (store hashFn embedFn compressFn flags
          (store hashFn embedFn compressFn flags db input id1 t1).2 input id2 t2).1 =
        some { m1 with access_count := m1.access_count + 1, accessed_at := some t2,
                       updated_at := t2 } ∧
      (store hashFn embedFn compressFn flags
          (store hashFn embedFn compressFn flags db input id1 t1).2 input id2
          t2).2.memories.length =
        (store hashFn embedFn compressFn flags db input id1 t1).2.memories.length := by
  have hnone : db.memories.find? (fun r =>
      decide (r.content_hash = hashFn input.content ∧
        r.user_context = jsOrStr input.user_context "default" ∧ r.deleted_at = none)) =
      none := by
    rw [List.find?_eq_none]
    intro x hx
    simpa using hmiss x hx
  set row := insertedRow hashFn embedFn compressFn flags input id1 t1 with hrow
  set s1 := store hashFn embedFn compressFn flags db input id1 t1 with hs1
  have h1 : s1 = (some row,
      storeRelateFold id1 t1 input.relate_to { db with memories := db.memories ++ [row] }) := by
    rw [hs1]
    unfold store
    simp only [hnone]
  have hmem1 : s1.2.memories = db.memories ++ [row] := by
    rw [h1]
    exact storeRelateFold_memories _ _ _ _
  have hrowid : row.id = id1 := rfl
  have hrowac : row.access_count = 0 := rfl
  have hfind2 : (db.memories ++ [row]).find? (fun r =>
      decide (r.content_hash = hashFn input.content ∧
        r.user_context = jsOrStr input.user_context "default" ∧ r.deleted_at = none)) =
      some row := by
    rw [List.find?_append, hnone, Option.none_or]
    exact List.find?_cons_of_pos _ (by simp [hrow, insertedRow])
  have h2 : store hashFn embedFn compressFn flags s1.2 input id2 t2 =
      (((db.memories ++ [row]).map fun r =>
          if r.id = row.id then bumpAccessRow t2 r else r).find?
            (fun r => decide (r.id = row.id)),
       { s1.2 with memories := (db.memories ++ [row]).map fun r =>
           if r.id = row.id then bumpAccessRow t2 r else r }) := by
    unfold store
    rw [hmem1]
    simp only [hfind2]
  have hfindbump : ((db.memories ++ [row]).map fun r =>
      if r.id = row.id then bumpAccessRow t2 r else r).find?
        (fun r => decide (r.id = row.id)) = some (bumpAccessRow t2 row) := by
    rw [List.map_append, List.find?_append]
    have hleft : (db.memories.map fun r =>
        if r.id = row.id then bumpAccessRow t2 r else r).find?
          (fun r => decide (r.id = row.id)) = none := by
      rw [List.find?_eq_none]
      intro x hx
      simp only [List.mem_map] at hx
      obtain ⟨y, hy, rfl⟩ := hx
      have hyid := hfresh y hy
      have hfy : (if y.id = row.id then bumpAccessRow t2 y else y) = y :=
        if_neg fun h => hyid (h.trans hrowid)
      simp only [hfy, decide_eq_true_eq]
      exact fun h => hyid (h.trans hrowid)
    rw [hleft, Option.none_or]
    simp only [List.map_cons, List.map_nil, if_pos rfl]
    exact List.find?_cons_of_pos _ (by simp [bumpAccessRow])
  refine ⟨row, ?_, hrowid, hrowac, ?_, ?_⟩
  · rw [h1]
  · rw [h2]
    show ((db.memories ++ [row]).map fun r =>
        if r.id = row.id then bumpAccessRow t2 r else r).find?
          (fun r => decide (r.id = row.id)) =
      some { row with access_count := row.access_count + 1, accessed_at := some t2,
                      updated_at := t2 }
    rw [hfindbump]
    rfl
  · rw [h2, hmem1]
    simp [List.length_map]

/-- Witness for `store_dedup_hit`: the two concrete C6 store calls on the
empty database, with the hypotheses discharged. -/
theorem store_dedup_hit_witness :
    (store (fun s => s) (fun _ => [1]) (fun _ c => c) {} ⟨[], []⟩ storeInputC6 "id-1" 0).1 =
      some storedRowC6 ∧
    (store (fun s => s) (fun _ => [1]) (fun _ c => c) {}
        (store (fun s => s) (fun _ => [1]) (fun _ c => c) {} ⟨[], []⟩ storeInputC6 "id-1" 0).2
        storeInputC6 "id-2" 1).1 =
      some { storedRowC6 with access_count := storedRowC6.access_count + 1,
                              accessed_at := some 1, updated_at := 1 } ∧
    (store (fun s => s) (fun _ => [1]) (fun _ c => c) {}
        (store (fun s => s) (fun _ => [1]) (fun _ c => c) {} ⟨[], []⟩ storeInputC6 "id-1" 0).2
        storeInputC6 "id-2" 1).2.memories.length =
      (store (fun s => s) (fun _ => [1]) (fun _ c => c) {} ⟨[], []⟩ storeInputC6 "id-1"
        0).2.memories.length := by
  obtain ⟨m1, h1, hid, hac, h2, hlen⟩ :=
    store_dedup_hit (fun s => s) (fun _ => [1]) (fun _ c => c) {} ⟨[], []⟩ storeInputC6
      "id-1" "id-2" 0 1 (by simp) (by simp)
  have hm : m1 = storedRowC6 := by
    have h0 : (store (fun s => s) (fun _ => [1]) (fun _ c => c) {} ⟨[], []⟩ storeInputC6
        "id-1" 0).1 = some storedRowC6 := rfl
    exact Option.some.inj (h1.symm.trans h0)
  subst hm
  exact ⟨h1, h2, hlen⟩

/-- Traversal algorithm selector of `TraversalService.traverse`. -/
inductive TraversalAlgorithm where
  | bfs
  | dfs
  deriving Repr, DecidableEq

/-- Options of `TraversalService.traverse`, with the destructuring
defaults of the source (`maxDepth = 5`, `maxNodes = 1000`).  The
wall-clock `timeoutMs` has no shallow embedding; the loop below takes a
fuel bound instead, and every theorem holds for every fuel, covering the
early truncation the timeout can cause. -/
structure TraversalOptions where
  startMemoryId : String
  userContext : String
  algorithm : TraversalAlgorithm := .bfs
  maxDepth : ℕ := 5
  maxNodes : ℕ := 1000
  relationTypes : List String := []
  memoryTypes : List String := []
  tags : List String := []
  includeParentLinks : Bool := false
  deriving Repr, DecidableEq

/-- Work item of the traversal queue. -/
structure Frontier where
  id : String
  depth : ℕ
  path : List String
  relation : Option String := none
  deriving Repr, DecidableEq

/-- Result node of a traversal (`GraphNode` in the source). -/
structure GraphNode where
  memory : Memory
  depth : ℕ
  path : List String
  relationFromParent : Option String := none
  deriving Repr, DecidableEq

/-- Postgres array-overlap `&&` between two tag arrays. -/
def tagsOverlap (a b : List String) : Bool := a.any fun t => b.contains t

/-- TraversalService.getMemory (`traversalService.ts` lines 102-126):
fetch the row by id with the `user_context`, `deleted_at IS NULL`,
optional type and optional tag-overlap filters. -/
def getMemoryFiltered (db : Db) (memoryId userContext : String)
    (memoryTypes tags : List String) : Option Memory :=
  db.memories.find? fun r => decide (
    r.id = memoryId ∧ r.user_context = userContext ∧ r.deleted_at = none ∧
    (memoryTypes ≠ [] → r.type ∈ memoryTypes) ∧
    (tags ≠ [] → tagsOverlap r.tags tags = true))

/-- TraversalService.getConnections (`traversalService.ts` lines 128-208):
outgoing edges, then incoming edges (each inner-joined against a visible
target row in the same `user_context`), then, when parent links are
requested, children labelled `parent_of` and the parent labelled
`child_of`. -/
def getConnections (db : Db) (memoryId userContext : String)
    (relationTypes : List String) (includeParentLinks : Bool) :
    List (String × String) :=
  let relTypeOk : String → Bool := fun t =>
    relationTypes.isEmpty || relationTypes.contains t
  let targetVisible : String → Bool := fun tid =>
    db.memories.any fun m =>
      decide (m.id = tid ∧ m.user_context = userContext ∧ m.deleted_at = none)
  let fromConns := db.relations.filterMap fun e =>
    if e.from_memory_id = memoryId ∧ relTypeOk e.relation_type = true ∧
        targetVisible e.to_memory_id = true then
      some (e.to_memory_id, e.relation_type)
    else none
  let toConns := db.relations.filterMap fun e =>
    if e.to_memory_id = memoryId ∧ relTypeOk e.relation_type = true ∧
        targetVisible e.from_memory_id = true then
      some (e.from_memory_id, e.relation_type)
    else none
  let conns := fromConns ++ toConns
  if includeParentLinks then
    let children := db.memories.filterMap fun m =>
      if m.parent_id = some memoryId ∧ m.user_context = userContext ∧ m.deleted_at = none then
        some (m.id, "parent_of")
      else none
    let parent := db.memories.find? fun m =>
      decide (m.id = memoryId ∧ m.parent_id ≠ none ∧ m.user_context = userContext ∧
        m.deleted_at = none)
    conns ++ children ++
      (match parent with
       | some p =>
         match p.parent_id with
         | some pid => [(pid, "child_of")]
         | none => []
       | none => [])
  else conns

/-- Loop body of `TraversalService.traverse` (`traversalService.ts` lines
54-97): pop front (BFS) or back (DFS), skip visited or too-deep items,
fetch the filtered row, append it to the result, and when below the depth
bound enqueue the unvisited connections at depth + 1. -/
def traverseLoop (db : Db) (o : TraversalOptions) :
    ℕ → List Frontier → List String → List GraphNode → List GraphNode
  | 0, _, _, result => result
  | fuel + 1, queue, visited, result =>
    if queue.isEmpty || decide (o.maxNodes ≤ result.length) then result
    else
      let current? :=
        match o.algorithm with
        | .bfs => queue.head?
        | .dfs => queue.getLast?
      let rest :=
        match o.algorithm with
        | .bfs => queue.tail
        | .dfs => queue.dropLast
      match current? with
      | none => traverseLoop db o fuel rest visited result
      | some current =>
        if visited.contains current.id || decide (o.maxDepth < current.depth) then
          traverseLoop db o fuel rest visited result
        else
          let visited1 := current.id :: visited
          match getMemoryFiltered db current.id o.userContext o.memoryTypes o.tags with
          | none => traverseLoop db o fuel rest visited1 result
          | some mem =>
            let result1 := result ++
              [{ memory := mem, depth := current.depth,
                 path := current.path ++ [current.id],
                 relationFromParent := current.relation }]
            if current.depth < o.maxDepth then
              let conns := getConnections db current.id o.userContext o.relationTypes
                o.includeParentLinks
              let pushes := conns.filterMap fun c =>
                if visited1.contains c.1 then none
                else some { id := c.1, depth := current.depth + 1,
                            path := current.path ++ [current.id],
                            relation := some c.2 }
              traverseLoop db o fuel (rest ++ pushes) visited1 result1
            else
              traverseLoop db o fuel rest visited1 result1

/-- TraversalService.traverse: run the loop from the start item at depth
0 with empty visited set and result. -/
def traverse (db : Db) (o : TraversalOptions) (fuel : ℕ) : List GraphNode :=
  traverseLoop db o fuel [{ id := o.startMemoryId, depth := 0, path := [] }] [] []

/-- Helper: a list of naturals whose elements are all equal is sorted. -/
theorem sorted_of_all_eq {l : List ℕ} {k : ℕ} (h : ∀ x ∈ l, x = k) :
    List.Sorted (· ≤ ·) l := by
  induction l with
  | nil => simp
  | cons a l ih =>
    rw [List.sorted_cons]
    refine ⟨fun b hb => ?_, ih fun x hx => h x (List.mem_cons_of_mem _ hx)⟩
    rw [h a (List.mem_cons_self _ _), h b (List.mem_cons_of_mem _ hb)]

/-- Helper: sortedness of an append, unfolded through `List.Pairwise`. -/
theorem sorted_append_iff {l1 l2 : List ℕ} :
    List.Sorted (· ≤ ·) (l1 ++ l2) ↔
      List.Sorted (· ≤ ·) l1 ∧ List.Sorted (· ≤ ·) l2 ∧ ∀ a ∈ l1, ∀ b ∈ l2, a ≤ b :=
  List.pairwise_append

/-- BFS loop invariant: if the result depths and queue depths are sorted,
every result depth is bounded by every queue depth, and any two queue
depths differ by at most one, then the final result depths are sorted. -/
theorem traverseLoop_bfs_sorted (db : Db) (o : TraversalOptions)
    (halg : o.algorithm = .bfs) :
    ∀ fuel queue visited result,
      List.Sorted (· ≤ ·) (result.map GraphNode.depth) →
      List.Sorted (· ≤ ·) (queue.map Frontier.depth) →
      (∀ r ∈ result, ∀ q ∈ queue, r.depth ≤ q.depth) →
      (∀ a ∈ queue, ∀ b ∈ queue, a.depth ≤ b.depth + 1) →
      List.Sorted (· ≤ ·)
        ((traverseLoop db o fuel queue visited result).map GraphNode.depth) := by
  intro fuel
  induction fuel with
  | zero =>
    intro queue visited result hres _ _ _
    exact hres
  | succ fuel ih =>
    intro queue visited result hres hq hrq hqq
    rw [traverseLoop.eq_2]
    cases queue with
    | nil =>
      rw [if_pos (by simp)]
      exact hres
    | cons c qs =>
      have hqs : List.Sorted (· ≤ ·) (qs.map Frontier.depth) := by
        rw [List.map_cons, List.sorted_cons] at hq
        exact hq.2
      have hcq : ∀ q ∈ qs, c.depth ≤ q.depth := by
        rw [List.map_cons, List.sorted_cons] at hq
        intro q hq2
        exact hq.1 _ (List.mem_map_of_mem _ hq2)
      have hrq2 : ∀ r ∈ result, ∀ q ∈ qs, r.depth ≤ q.depth := fun r hr q hq2 =>
        hrq r hr q (List.mem_cons_of_mem _ hq2)
      have hqq2 : ∀ a ∈ qs, ∀ b ∈ qs, a.depth ≤ b.depth + 1 := fun a ha b hb =>
        hqq a (List.mem_cons_of_mem _ ha) b (List.mem_cons_of_mem _ hb)
      have hrc : ∀ r ∈ result, r.depth ≤ c.depth := fun r hr =>
        hrq r hr c (List.mem_cons_self _ _)
      have hqc1 : ∀ q ∈ qs, q.depth ≤ c.depth + 1 := fun q hq2 =>
        hqq q (List.mem_cons_of_mem _ hq2) c (List.mem_cons_self _ _)
      by_cases hlen : o.maxNodes ≤ result.length
      · rw [if_pos (by simp [hlen])]
        exact hres
      · rw [if_neg (by simp [hlen])]
        simp only [halg, List.head?_cons, List.tail_cons]
        by_cases hskip : (visited.contains c.id || decide (o.maxDepth < c.depth)) = true
        · rw [if_pos hskip]
          exact ih qs visited result hres hqs hrq2 hqq2
        · rw [if_neg hskip]
          cases hfetch : getMemoryFiltered db c.id o.userContext o.memoryTypes o.tags with
          | none =>
            exact ih qs (c.id :: visited) result hres hqs hrq2 hqq2
          | some mem =>
            dsimp only
            have hres1 : List.Sorted (· ≤ ·)
                ((result ++ [({ memory := mem, depth := c.depth,
                                path := c.path ++ [c.id],
                                relationFromParent := c.relation } : GraphNode)]).map
                  GraphNode.depth) := by
              rw [List.map_append, sorted_append_iff]
              refine ⟨hres, by simp, ?_⟩
              intro a ha b hb
              simp only [List.map_cons, List.map_nil, List.mem_singleton] at hb
              obtain ⟨r, hr, rfl⟩ := List.mem_map.mp ha
              subst hb
              exact hrc r hr
            have hrq1 : ∀ r ∈ result ++ [({ memory := mem, depth := c.depth,
                                             path := c.path ++ [c.id],
                                             relationFromParent := c.relation } : GraphNode)],
                ∀ q ∈ qs, r.depth ≤ q.depth := by
              intro r hr q hq2
              rcases List.mem_append.mp hr with hr1 | hr2
              · exact hrq2 r hr1 q hq2
              · simp only [List.mem_singleton] at hr2
                subst hr2
                exact hcq q hq2
            by_cases hdeep : c.depth < o.maxDepth
            · rw [if_pos hdeep]
              have hpd : ∀ p ∈ (getConnections db c.id o.userContext o.relationTypes
                  o.includeParentLinks).filterMap (fun c0 =>
                    if (c.id :: visited).contains c0.1 then none
                    else some ({ id := c0.1, depth := c.depth + 1,
                                 path := c.path ++ [c.id],
                                 relation := some c0.2 } : Frontier)),
                  p.depth = c.depth + 1 := by
                intro p hp
                obtain ⟨x, hx, hfx⟩ := List.mem_filterMap.mp hp
                by_cases hv : (c.id :: visited).contains x.1 = true
                · rw [if_pos hv] at hfx
                  cases hfx
                · rw [if_neg hv] at hfx
                  cases hfx
                  rfl
              refine ih _ _ _ hres1 ?_ ?_ ?_
              · rw [List.map_append, sorted_append_iff]
                refine ⟨hqs, sorted_of_all_eq (k := c.depth + 1) ?_, ?_⟩
                · intro x hx
                  obtain ⟨p, hp, rfl⟩ := List.mem_map.mp hx
                  exact hpd p hp
                · intro a ha b hb
                  obtain ⟨q, hq2, rfl⟩ := List.mem_map.mp ha
                  obtain ⟨p, hp, rfl⟩ := List.mem_map.mp hb
                  rw [hpd p hp]
                  exact hqc1 q hq2
              · intro r hr q hq2
                rcases List.mem_append.mp hq2 with h1 | h2
                · exact hrq1 r hr q h1
                · rw [hpd q h2]
                  rcases List.mem_append.mp hr with hr1 | hr2
                  · exact le_trans (hrc r hr1) (Nat.le_succ _)
                  · simp only [List.mem_singleton] at hr2
                    subst hr2
                    exact Nat.le_succ _
              · intro a ha b hb
                rcases List.mem_append.mp ha with ha1 | ha2
                · rcases List.mem_append.mp hb with hb1 | hb2
                  · exact hqq2 a ha1 b hb1
                  · rw [hpd b hb2]
                    exact le_trans (hqc1 a ha1) (Nat.le_succ _)
                · rw [hpd a ha2]
                  rcases List.mem_append.mp hb with hb1 | hb2
                  · exact Nat.succ_le_succ (hcq b hb1)
                  · rw [hpd b hb2]
                    exact Nat.le_succ _
            · rw [if_neg hdeep]
              exact ih qs (c.id :: visited) _ hres1 hqs hrq1 hqq2

/-- Loop invariant: the result never grows beyond `maxNodes` (for either
algorithm). -/
theorem traverseLoop_length (db : Db) (o : TraversalOptions) :
    ∀ fuel queue visited result, result.length ≤ o.maxNodes →
      (traverseLoop db o fuel queue visited result).length ≤ o.maxNodes := by
  intro fuel
  induction fuel with
  | zero => intro queue visited result h; exact h
  | succ fuel ih =>
    intro queue visited result h
    rw [traverseLoop.eq_2]
    by_cases hstop : (queue.isEmpty || decide (o.maxNodes ≤ result.length)) = true
    · rw [if_pos hstop]
      exact h
    · rw [if_neg hstop]
      have hlt : result.length < o.maxNodes := by
        simp only [Bool.or_eq_true, decide_eq_true_eq, not_or] at hstop
        exact Nat.lt_of_not_le hstop.2
      cases hcur : (match o.algorithm with
        | TraversalAlgorithm.bfs => queue.head?
        | TraversalAlgorithm.dfs => queue.getLast?) with
      | none =>
        dsimp only
        exact ih _ _ _ h
      | some c =>
        dsimp only
        by_cases hskip : (visited.contains c.id || decide (o.maxDepth < c.depth)) = true
        · rw [if_pos hskip]
          exact ih _ _ _ h
        · rw [if_neg hskip]
          cases hfetch : getMemoryFiltered db c.id o.userContext o.memoryTypes o.tags with
          | none => exact ih _ _ _ h
          | some mem =>
            dsimp only
            have h1 : (result ++ [({ memory := mem, depth := c.depth,
                                     path := c.path ++ [c.id],
                                     relationFromParent := c.relation } : GraphNode)]).length ≤
                o.maxNodes := by
              simp only [List.length_append, List.length_singleton]
              omega
            by_cases hdeep : c.depth < o.maxDepth
            · rw [if_pos hdeep]
              exact ih _ _ _ h1
            · rw [if_neg hdeep]
              exact ih _ _ _ h1

/-- Loop invariant: every returned node is at depth at most `maxDepth`
(for either algorithm): items deeper than the bound are skipped before the
result append. -/
theorem traverseLoop_maxDepth (db : Db) (o : TraversalOptions) :
    ∀ fuel queue visited result,
      (∀ n ∈ result, n.depth ≤ o.maxDepth) →
      ∀ n ∈ traverseLoop db o fuel queue visited result, n.depth ≤ o.maxDepth := by
  intro fuel
  induction fuel with
  | zero => intro queue visited result h; exact h
  | succ fuel ih =>
    intro queue visited result h
    rw [traverseLoop.eq_2]
    by_cases hstop : (queue.isEmpty || decide (o.maxNodes ≤ result.length)) = true
    · rw [if_pos hstop]
      exact h
    · rw [if_neg hstop]
      cases hcur : (match o.algorithm with
        | TraversalAlgorithm.bfs => queue.head?
        | TraversalAlgorithm.dfs => queue.getLast?) with
      | none =>
        dsimp only
        exact ih _ _ _ h
      | some c =>
        dsimp only
        by_cases hskip : (visited.contains c.id || decide (o.maxDepth < c.depth)) = true
        · rw [if_pos hskip]
          exact ih _ _ _ h
        · rw [if_neg hskip]
          have hcd : c.depth ≤ o.maxDepth := by
            simp only [Bool.or_eq_true, decide_eq_true_eq, not_or] at hskip
            exact Nat.le_of_not_lt hskip.2
          cases hfetch : getMemoryFiltered db c.id o.userContext o.memoryTypes o.tags with
          | none => exact ih _ _ _ h
          | some mem =>
            dsimp only
            have h1 : ∀ n ∈ result ++ [({ memory := mem, depth := c.depth,
                                          path := c.path ++ [c.id],
                                          relationFromParent := c.relation } : GraphNode)],
                n.depth ≤ o.maxDepth := by
              intro n hn
              rcases List.mem_append.mp hn with hn1 | hn2
              · exact h n hn1
              · simp only [List.mem_singleton] at hn2
                subst hn2
                exact hcd
            by_cases hdeep : c.depth < o.maxDepth
            · rw [if_pos hdeep]
              exact ih _ _ _ h1
            · rw [if_neg hdeep]
              exact ih _ _ _ h1

/-- Loop invariant: every returned node's row was fetched through
`getMemoryFiltered`, hence carries the requested `user_context` and is
not soft-deleted (for either algorithm). -/
theorem traverseLoop_rows (db : Db) (o : TraversalOptions) :
    ∀ fuel queue visited result,
      (∀ n ∈ result, n.memory.user_context = o.userContext ∧ n.memory.deleted_at = none) →
      ∀ n ∈ traverseLoop db o fuel queue visited result,
        n.memory.user_context = o.userContext ∧ n.memory.deleted_at = none := by
  intro fuel
  induction fuel with
  | zero => intro queue visited result h; exact h
  | succ fuel ih =>
    intro queue visited result h
    rw [traverseLoop.eq_2]
    by_cases hstop : (queue.isEmpty || decide (o.maxNodes ≤ result.length)) = true
    · rw [if_pos hstop]
      exact h
    · rw [if_neg hstop]
      cases hcur : (match o.algorithm with
        | TraversalAlgorithm.bfs => queue.head?
        | TraversalAlgorithm.dfs => queue.getLast?) with
      | none =>
        dsimp only
        exact ih _ _ _ h
      | some c =>
        dsimp only
        by_cases hskip : (visited.contains c.id || decide (o.maxDepth < c.depth)) = true
        · rw [if_pos hskip]
          exact ih _ _ _ h
        · rw [if_neg hskip]
          cases hfetch : getMemoryFiltered db c.id o.userContext o.memoryTypes o.tags with
          | none => exact ih _ _ _ h
          | some mem =>
            dsimp only
            have hmemp : mem.user_context = o.userContext ∧ mem.deleted_at = none := by
              unfold getMemoryFiltered at hfetch
              have hp := List.find?_some hfetch
              simp only [decide_eq_true_eq] at hp
              exact ⟨hp.2.1, hp.2.2.1⟩
            have h1 : ∀ n ∈ result ++ [({ memory := mem, depth := c.depth,
                                          path := c.path ++ [c.id],
                                          relationFromParent := c.relation } : GraphNode)],
                n.memory.user_context = o.userContext ∧ n.memory.deleted_at = none := by
              intro n hn
              rcases List.mem_append.mp hn with hn1 | hn2
              · exact h n hn1
              · simp only [List.mem_singleton] at hn2
                subst hn2
                exact hmemp
            by_cases hdeep : c.depth < o.maxDepth
            · rw [if_pos hdeep]
              exact ih _ _ _ h1
            · rw [if_neg hdeep]
              exact ih _ _ _ h1

/-- C8: a BFS traversal run returns nodes of non-decreasing depth, never
more than `maxNodes` of them, and none deeper than `maxDepth` — for every
database, option set and fuel bound (the fuel covers the wall-clock
timeout truncation). -/
theorem bfs_traversal_bounds (db : Db) (o : TraversalOptions) (fuel : ℕ)
    (halg : o.algorithm = TraversalAlgorithm.bfs) :
    List.Sorted (· ≤ ·) ((traverse db o fuel).map GraphNode.depth) ∧
    (traverse db o fuel).length ≤ o.maxNodes ∧
    ∀ n ∈ traverse db o fuel, n.depth ≤ o.maxDepth := by
  refine ⟨?_, ?_, ?_⟩
  · exact traverseLoop_bfs_sorted db o halg fuel _ _ _ (by simp) (by simp)
      (by simp) (by simp)
  · exact traverseLoop_length db o fuel _ _ _ (by simp)
  · exact traverseLoop_maxDepth db o fuel _ _ _ (by simp)

/-- Two-node graph used by the traversal witness. -/
def traversalDbEx : Db :=
  { memories :=
      [{ id := "A", user_context := "default", content := .json "a",
         content_hash := "ha", type := "fact" },
       { id := "B", user_context := "default", content := .json "b",
         content_hash := "hb", type := "fact" }]
    relations :=
      [{ id := "r1", from_memory_id := "A", to_memory_id := "B",
         relation_type := "references", strength := 0.5 }] }

/-- Default BFS options starting at node `A`. -/
def traversalOptsEx : TraversalOptions :=
  { startMemoryId := "A", userContext := "default" }

/-- Witness for `bfs_traversal_bounds` on the concrete two-node graph. -/
theorem bfs_traversal_bounds_witness :
    List.Sorted (· ≤ ·) ((traverse traversalDbEx traversalOptsEx 10).map GraphNode.depth) ∧
    (traverse traversalDbEx traversalOptsEx 10).length ≤ traversalOptsEx.maxNodes ∧
    ∀ n ∈ traverse traversalDbEx traversalOptsEx 10, n.depth ≤ traversalOptsEx.maxDepth :=
  bfs_traversal_bounds traversalDbEx traversalOptsEx 10 rfl

/-- Insertion step of a stable sort by descending rational key, modelling
SQL `ORDER BY key DESC` (the relative order of equal keys does not matter
to any claim below). -/
def insertDescBy {α : Type} (key : α → ℚ) (x : α) : List α → List α
  | [] => [x]
  | y :: ys => if key y < key x then x :: y :: ys else y :: insertDescBy key x ys

/-- Sort by descending rational key. -/
def orderByDesc {α : Type} (key : α → ℚ) (l : List α) : List α :=
  l.foldr (insertDescBy key) []

/-- Membership is preserved by the descending insertion. -/
theorem mem_insertDescBy {α : Type} (key : α → ℚ) (x a : α) :
    ∀ l, a ∈ insertDescBy key x l ↔ a = x ∨ a ∈ l := by
  intro l
  induction l with
  | nil => simp [insertDescBy]
  | cons y ys ih =>
    unfold insertDescBy
    by_cases h : key y < key x
    · rw [if_pos h]
      simp [List.mem_cons]
    · rw [if_neg h]
      simp only [List.mem_cons, ih]
      tauto

/-- Membership is preserved by the descending sort. -/
theorem mem_orderByDesc {α : Type} (key : α → ℚ) (l : List α) (a : α) :
    a ∈ orderByDesc key l ↔ a ∈ l := by
  unfold orderByDesc
  induction l with
  | nil => simp
  | cons y ys ih =>
    simp only [List.foldr_cons, mem_insertDescBy, ih, List.mem_cons]

/-- Validated `memory_search` / `memory_graph_search` input
(`SearchMemorySchema` extended with `depth` for the graph variant), with
the zod defaults. -/
structure SearchInput where
  query : String
  type : Option String := none
  tags : List String := []
  limit : ℕ := 20
  threshold : ℚ := 0.7
  user_context : Option String := none
  depth : ℕ := 1
  deriving Repr, DecidableEq

/-- Optional type-equality filter of `search` and `list`. -/
def typeMatches (t? : Option String) (m : Memory) : Bool :=
  match t? with
  | some t => decide (m.type = t)
  | none => true

/-- Similarity `1 - (embedding <=> query)` computed by the database;
`vecDist` is the external pgvector cosine-distance operator. -/
def similarityTo (vecDist : List ℚ → List ℚ → ℚ) (qvec : List ℚ) (m : Memory) : ℚ :=
  1 - vecDist (m.embedding.getD []) qvec

/-- MemoryService.search (`memory-service.ts` lines 178-238): filter by
`deleted_at IS NULL`, embedding present, `user_context` (defaulted), the
optional type and tag filters and the similarity threshold; order by
similarity descending, take `limit`; then bump access on the returned ids
(`updated_at` set by the trigger).  Returns the selected rows (pre-bump)
and the updated table.  The cache layers are modelled as missing: a cache
hit replays a previous result of this same function. -/
def searchMemories (vecDist : List ℚ → List ℚ → ℚ) (embedFn : String → List ℚ)
    (db : Db) (input : SearchInput) (now : ℚ) : List Memory × Db :=
  let qvec := embedFn input.query
  let uc := jsOrStr input.user_context "default"
  let results := (orderByDesc (similarityTo vecDist qvec)
    (db.memories.filter fun m => decide (
      m.deleted_at = none ∧ m.embedding ≠ none ∧ m.user_context = uc ∧
      typeMatches input.type m = true ∧
      (input.tags ≠ [] → tagsOverlap m.tags input.tags = true) ∧
      input.threshold ≤ similarityTo vecDist qvec m))).take input.limit
  let ids := results.map Memory.id
  let memories2 :=
    if results.isEmpty then db.memories
    else db.memories.map fun r => if ids.contains r.id then bumpAccessRow now r else r
  (results, { db with memories := memories2 })

/-- Validated `memory_list` input (`ListMemorySchema`), with the zod
defaults. -/
structure ListInput where
  type : Option String := none
  tags : List String := []
  limit : ℕ := 50
  offset : ℕ := 0
  user_context : Option String := none
  deriving Repr, DecidableEq

/-- String form of a content value, as `decompressMemory` returns it. -/
def contentText : Content → String
  | .json s => s
  | .textWrapped s => s

/-- Per-row decompression applied by `list` on the way out: the returned
value carries the text wrapper and `is_compressed = false`; the stored row
is untouched. -/
def decompressRow (m : Memory) : Memory :=
  if m.is_compressed then
    { m with content := .textWrapped (contentText m.content), is_compressed := false }
  else m

/-- MemoryService.list (`memory-service.ts` lines 240-260): the same
scoping filters, ordered by `created_at` descending with offset and
limit, decompressed for the caller. -/
def listMemories (db : Db) (input : ListInput) : List Memory :=
  let uc := jsOrStr input.user_context "default"
  let filtered := db.memories.filter fun m => decide (
    m.deleted_at = none ∧ m.user_context = uc ∧
    typeMatches input.type m = true ∧
    (input.tags ≠ [] → tagsOverlap m.tags input.tags = true))
  (((orderByDesc (fun m => m.created_at) filtered).drop input.offset).take input.limit).map
    decompressRow

/-- Identifier of the far endpoint of an edge relative to `mid`. -/
def relatedIdFor (mid : String) (e : MemoryRelation) : String :=
  if e.from_memory_id = mid then e.to_memory_id else e.from_memory_id

/-- Relationship record `(relatedId, type, strength)` pushed into the
relationship map by `graphSearch`. -/
def relEntryFor (mid : String) (e : MemoryRelation) : String × String × ℚ :=
  (relatedIdFor mid e, e.relation_type, e.strength)

/-- Relation-processing loop of one `graphSearch` expansion step
(`memory-service.ts` lines 410-438): for each edge record the relationship
entry; for an unvisited far endpoint mark it visited and fetch the row by
id with only the `deleted_at IS NULL` filter — the source applies no
`user_context` predicate here.  Returns the updated visited set, the
fetched rows in order, and the relationship entries in order. -/
def relLoop (db : Db) (mid : String) :
    List MemoryRelation → List String →
    List String × List Memory × List (String × String × ℚ)
  | [], visited => (visited, [], [])
  | e :: es, visited =>
    if visited.contains (relatedIdFor mid e) then
      ((relLoop db mid es visited).1,
       (relLoop db mid es visited).2.1,
       relEntryFor mid e :: (relLoop db mid es visited).2.2)
    else
      match db.memories.find? fun x =>
          decide (x.id = relatedIdFor mid e ∧ x.deleted_at = none) with
      | some rm =>
        ((relLoop db mid es (relatedIdFor mid e :: visited)).1,
         rm :: (relLoop db mid es (relatedIdFor mid e :: visited)).2.1,
         relEntryFor mid e :: (relLoop db mid es (relatedIdFor mid e :: visited)).2.2)
      | none =>
        ((relLoop db mid es (relatedIdFor mid e :: visited)).1,
         (relLoop db mid es (relatedIdFor mid e :: visited)).2.1,
         relEntryFor mid e :: (relLoop db mid es (relatedIdFor mid e :: visited)).2.2)

/-- Parent-relation loop of one `graphSearch` expansion step
(`memory-service.ts` lines 441-447): enqueue each unvisited row of the
parent-relation query. -/
def parentLoop : List Memory → List String → List String × List Memory
  | [], visited => (visited, [])
  | p :: ps, visited =>
    if visited.contains p.id then parentLoop ps visited
    else ((parentLoop ps (p.id :: visited)).1, p :: (parentLoop ps (p.id :: visited)).2)

/-- One breadth level of `graphSearch`: for each queued memory, process
its edges ordered by strength descending, then the parent relations
(matched on `parent_id` in either direction, filtered only by
`deleted_at IS NULL` — again with no `user_context` predicate).  Returns
the visited set, the newly reached rows of this level in traversal order,
and the extended relationship map. -/
def processLevel (db : Db) :
    List Memory → List String → List (String × List (String × String × ℚ)) →
    List String × List Memory × List (String × List (String × String × ℚ))
  | [], visited, relMap => (visited, [], relMap)
  | m :: ms, visited, relMap =>
    let rels := orderByDesc (fun e => e.strength)
      (db.relations.filter fun e =>
        decide (e.from_memory_id = m.id ∨ e.to_memory_id = m.id))
    let r1 := relLoop db m.id rels visited
    let parentRels := db.memories.filter fun p =>
      decide ((p.parent_id = some m.id ∨ p.id = jsOrStr m.parent_id "") ∧
        p.deleted_at = none)
    let p1 := parentLoop parentRels r1.1
    let rest := processLevel db ms p1.1 (relMap ++ [(m.id, r1.2.2)])
    (rest.1, r1.2.1 ++ p1.2 ++ rest.2.1, rest.2.2)

/-- Depth iteration of `graphSearch`: each level processes the rows
reached at the previous level. -/
def graphLevels (db : Db) :
    ℕ → List Memory → List String → List Memory →
    List (String × List (String × String × ℚ)) →
    List Memory × List (String × List (String × String × ℚ))
  | 0, _, _, acc, relMap => (acc, relMap)
  | d + 1, queue, visited, acc, relMap =>
    let lv := processLevel db queue visited relMap
    graphLevels db d lv.2.1 lv.1 (acc ++ lv.2.1) lv.2.2

/-- Lookup in the relationship map (`relationshipMap.get(id) || []`). -/
def relMapLookup (relMap : List (String × List (String × String × ℚ)))
    (mid : String) : List (String × String × ℚ) :=
  match relMap.find? fun p => decide (p.1 = mid) with
  | some p => p.2
  | none => []

/-- MemoryService.graphSearch (`memory-service.ts` lines 373-459): seed
with `search`, breadth-expand `depth` levels over edges (both directions)
and parent links, then attach `metadata.relationships` to every returned
row. -/
def graphSearch (vecDist : List ℚ → List ℚ → ℚ) (embedFn : String → List ℚ)
    (db : Db) (input : SearchInput) (now : ℚ) : List Memory :=
  let s := searchMemories vecDist embedFn db input now
  if s.1.isEmpty || decide (input.depth = 0) then s.1
  else
    let lv := graphLevels s.2 input.depth s.1 (s.1.map Memory.id) s.1 []
    lv.1.map fun m =>
      { m with metadata := { m.metadata with relationships := relMapLookup lv.2 m.id } }

/-- Rows returned by `search` carry the request's (defaulted)
`user_context` and are not soft-deleted. -/
theorem searchMemories_rows (vecDist : List ℚ → List ℚ → ℚ)
    (embedFn : String → List ℚ) (db : Db) (input : SearchInput) (now : ℚ) :
    ∀ m ∈ (searchMemories vecDist embedFn db input now).1,
      m.user_context = jsOrStr input.user_context "default" ∧ m.deleted_at = none := by
  intro m hm
  simp only [searchMemories] at hm
  have hm2 := List.take_subset _ _ hm
  have hm3 := (mem_orderByDesc _ _ _).mp hm2
  have h4 := (List.mem_filter.mp hm3).2
  simp only [decide_eq_true_eq] at h4
  exact ⟨h4.2.2.1, h4.1⟩

/-- Rows returned by `list` carry the request's (defaulted)
`user_context` and are not soft-deleted (decompression touches only the
content and compression flag). -/
theorem listMemories_rows (db : Db) (input : ListInput) :
    ∀ m ∈ listMemories db input,
      m.user_context = jsOrStr input.user_context "default" ∧ m.deleted_at = none := by
  intro m hm
  simp only [listMemories] at hm
  obtain ⟨m0, hm0, rfl⟩ := List.mem_map.mp hm
  have hm1 := List.take_subset _ _ hm0
  have hm2 := List.drop_subset _ _ hm1
  have hm3 := (mem_orderByDesc _ _ _).mp hm2
  have h4 := (List.mem_filter.mp hm3).2
  simp only [decide_eq_true_eq] at h4
  have hdec : (decompressRow m0).user_context = m0.user_context ∧
      (decompressRow m0).deleted_at = m0.deleted_at := by
    unfold decompressRow
    by_cases hc : m0.is_compressed = true
    · rw [if_pos hc]
      exact ⟨rfl, rfl⟩
    · rw [if_neg hc]
      exact ⟨rfl, rfl⟩
  exact ⟨hdec.1.trans h4.2.1, hdec.2.trans h4.1⟩

/-- Every row fetched by the relation-expansion loop of `graphSearch` is
not soft-deleted (that is the only filter the source applies there). -/
theorem relLoop_nodes (db : Db) (mid : String) :
    ∀ es visited, ∀ n ∈ (relLoop db mid es visited).2.1, n.deleted_at = none := by
  intro es
  induction es with
  | nil =>
    intro visited n hn
    simp [relLoop] at hn
  | cons e es ih =>
    intro visited n hn
    rw [relLoop.eq_2] at hn
    by_cases hv : visited.contains (relatedIdFor mid e) = true
    · rw [if_pos hv] at hn
      exact ih _ _ hn
    · rw [if_neg hv] at hn
      cases hfind : db.memories.find? fun x =>
          decide (x.id = relatedIdFor mid e ∧ x.deleted_at = none) with
      | some rm =>
        rw [hfind] at hn
        dsimp only at hn
        rcases List.mem_cons.mp hn with h | h
        · have hp := List.find?_some hfind
          simp only [decide_eq_true_eq] at hp
          exact h ▸ hp.2
        · exact ih _ _ h
      | none =>
        rw [hfind] at hn
        dsimp only at hn
        exact ih _ _ hn

/-- The parent-relation loop only returns rows of its input list. -/
theorem parentLoop_sub : ∀ ps visited, ∀ n ∈ (parentLoop ps visited).2, n ∈ ps := by
  intro ps
  induction ps with
  | nil =>
    intro visited n hn
    simp [parentLoop] at hn
  | cons p ps ih =>
    intro visited n hn
    rw [parentLoop.eq_2] at hn
    by_cases hv : visited.contains p.id = true
    · rw [if_pos hv] at hn
      exact List.mem_cons_of_mem _ (ih _ _ hn)
    · rw [if_neg hv] at hn
      dsimp only at hn
      rcases List.mem_cons.mp hn with h | h
      · exact h ▸ List.mem_cons_self _ _
      · exact List.mem_cons_of_mem _ (ih _ _ h)

/-- Every row newly reached by one `graphSearch` breadth level is not
soft-deleted. -/
theorem processLevel_nodes (db : Db) :
    ∀ ms visited relMap, ∀ n ∈ (processLevel db ms visited relMap).2.1,
      n.deleted_at = none := by
  intro ms
  induction ms with
  | nil =>
    intro visited relMap n hn
    simp [processLevel] at hn
  | cons m ms ih =>
    intro visited relMap n hn
    simp only [processLevel] at hn
    rcases List.mem_append.mp hn with h1 | h2
    · rcases List.mem_append.mp h1 with ha | hb
      · exact relLoop_nodes db m.id _ _ n ha
      · have hmem := parentLoop_sub _ _ n hb
        have h4 := (List.mem_filter.mp hmem).2
        simp only [decide_eq_true_eq] at h4
        exact h4.2
    · exact ih _ _ n h2

/-- Accumulated `graphSearch` rows across levels are not soft-deleted,
given the seeds are not. -/
theorem graphLevels_nodes (db : Db) :
    ∀ d queue visited acc relMap,
      (∀ n ∈ acc, n.deleted_at = none) →
      ∀ n ∈ (graphLevels db d queue visited acc relMap).1, n.deleted_at = none := by
  intro d
  induction d with
  | zero =>
    intro queue visited acc relMap hacc n hn
    exact hacc n hn
  | succ d ih =>
    intro queue visited acc relMap hacc n hn
    simp only [graphLevels] at hn
    refine ih _ _ _ _ (fun x hx => ?_) n hn
    rcases List.mem_append.mp hx with h1 | h2
    · exact hacc x h1
    · exact processLevel_nodes db _ _ _ x h2

/-- Every row returned by `graphSearch` — seed or breadth-expanded — is
not soft-deleted. -/
theorem graphSearch_not_deleted (vecDist : List ℚ → List ℚ → ℚ)
    (embedFn : String → List ℚ) (db : Db) (input : SearchInput) (now : ℚ) :
    ∀ m ∈ graphSearch vecDist embedFn db input now, m.deleted_at = none := by
  intro m hm
  simp only [graphSearch] at hm
  by_cases h0 : ((searchMemories vecDist embedFn db input now).1.isEmpty ||
      decide (input.depth = 0)) = true
  · rw [if_pos h0] at hm
    exact (searchMemories_rows vecDist embedFn db input now m hm).2
  · rw [if_neg h0] at hm
    obtain ⟨m0, hm0, rfl⟩ := List.mem_map.mp hm
    exact graphLevels_nodes _ input.depth _ _ _ _
      (fun x hx => (searchMemories_rows vecDist embedFn db input now x hx).2) m0 hm0

/-- C1 (amended): `search` and `list` return only rows in the request's
(defaulted) `user_context` with `deleted_at IS NULL`; `traverse` returns
only rows in the requested `userContext` with `deleted_at IS NULL`; and
every `graphSearch` row satisfies `deleted_at IS NULL` — but `graphSearch`
guarantees the `user_context` scoping only for its seed rows, not for the
breadth-expanded ones (see
`graphSearch_returns_foreign_context_row`). -/
theorem rows_scoped_and_undeleted (vecDist : List ℚ → List ℚ → ℚ)
    (embedFn : String → List ℚ) (db : Db) (sIn : SearchInput) (lIn : ListInput)
    (o : TraversalOptions) (fuel : ℕ) (now : ℚ) :
    (∀ m ∈ (searchMemories vecDist embedFn db sIn now).1,
       m.user_context = jsOrStr sIn.user_context "default" ∧ m.deleted_at = none) ∧
    (∀ m ∈ listMemories db lIn,
       m.user_context = jsOrStr lIn.user_context "default" ∧ m.deleted_at = none) ∧
    (∀ n ∈ traverse db o fuel,
       n.memory.user_context = o.userContext ∧ n.memory.deleted_at = none) ∧
    (∀ m ∈ graphSearch vecDist embedFn db sIn now, m.deleted_at = none) := by
  refine ⟨searchMemories_rows vecDist embedFn db sIn now, listMemories_rows db lIn,
    ?_, graphSearch_not_deleted vecDist embedFn db sIn now⟩
  intro n hn
  exact traverseLoop_rows db o fuel _ _ _ (by simp) n hn

/-- Seed memory of tenant `default` with an embedding. -/
def c1DefaultMemory : Memory :=
  { id := "A"
    user_context := "default"
    content := .json "a"
    content_hash := "ha"
    type := "fact"
    embedding := some [1] }

/-- Memory of tenant `other`, linked to the seed by an edge. -/
def c1OtherMemory : Memory :=
  { id := "B"
    user_context := "other"
    content := .json "b"
    content_hash := "hb"
    type := "fact" }

/-- Two-tenant database with a cross-tenant edge. -/
def c1Db : Db :=
  { memories := [c1DefaultMemory, c1OtherMemory]
    relations := [{ id := "r1", from_memory_id := "A", to_memory_id := "B",
                    relation_type := "references", strength := 0.5 }] }

/-- Graph-search request of tenant `default` (defaults: threshold 0.7,
limit 20, depth 1). -/
def c1Input : SearchInput := { query := "q" }

/-- C1 counterexample: the breadth-expansion of `graphSearch` fetches
related rows with only the `deleted_at IS NULL` filter, so the request of
tenant `default` returns the row of tenant `other` — a row from another
`user_context` is returned to the caller. -/
theorem graphSearch_returns_foreign_context_row :
    (graphSearch (fun _ _ => 0) (fun _ => [1]) c1Db c1Input 0).map Memory.user_context =
      ["default", "other"] ∧
    jsOrStr c1Input.user_context "default" = "default" := by
  refine ⟨?_, rfl⟩
  norm_num [graphSearch, searchMemories, c1Db, c1Input, c1DefaultMemory, c1OtherMemory,
    orderByDesc, insertDescBy, similarityTo, jsOrStr, tagsOverlap, typeMatches,
    graphLevels, processLevel, relLoop, parentLoop, relMapLookup, relatedIdFor,
    relEntryFor, bumpAccessRow, List.filter]
  simp +decide

/-- Witness for `rows_scoped_and_undeleted`: the concrete seed row of the
two-tenant database satisfies the scoping guarantee of `search`. -/
theorem rows_scoped_and_undeleted_witness :
    c1DefaultMemory.user_context = jsOrStr c1Input.user_context "default" ∧
    c1DefaultMemory.deleted_at = none := by
  have hmem : c1DefaultMemory ∈
      (searchMemories (fun _ _ => 0) (fun _ => [1]) c1Db c1Input 0).1 := by
    have h : (searchMemories (fun _ _ => 0) (fun _ => [1]) c1Db c1Input 0).1 =
        [c1DefaultMemory] := by
      norm_num [searchMemories, c1Db, c1Input, c1DefaultMemory, c1OtherMemory,
        orderByDesc, insertDescBy, similarityTo, jsOrStr, tagsOverlap, typeMatches,
        List.filter]
      simp +decide
      rfl
    rw [h]
    exact List.mem_singleton.mpr rfl
  exact (rows_scoped_and_undeleted (fun _ _ => 0) (fun _ => [1]) c1Db c1Input {}
    { startMemoryId := "A", userContext := "default" } 5 0).1 c1DefaultMemory hmem

end McpMemory
